import Mathlib

/-!
PushUP: a small content-addressed version-control engine.

This file is a state-passing model of the repository operations in
src/PushUP.mjs together with proofs of functional properties about them.

Modelling conventions:
- The on-disk object directory, branch ref directory, HEAD file,
  CURRENT_BRANCH file and the JSON index file become fields of `Repo`.
- File contents are `String`; an empty HEAD file is the empty string, and a
  branch ref file holding the empty string is a branch with no commits.
- sha1 (`hashObject`) and the commit serialization (`JSON.stringify`) are
  abstract function parameters `hashFn` and `ser`; every theorem is
  universally quantified over them.
- `JSON.parse` applied to stored bytes recovers commit data exactly for
  objects that were stored as commits; parsing a plain blob is modelled as
  a failure (in the script it throws, and every caller of that pattern
  turns the throw into an abort that leaves the repository unchanged).
- Operations that print results return the repository state paired with a
  value describing what was printed, so that the absence of mutation is a
  statement about the returned state.
-/

namespace PushUP

/-- One record of the JSON index file: a staged path and the digest of its
staged content. -/
structure StagedEntry where
  filePath : String
  fileHash : String
deriving DecidableEq, Repr

/-- The payload of a commit object as serialized by `commit` and `merge`:
`parent := none` models a JSON `null` or absent field, and `mergeParent`
is `none` for ordinary commits (the key is absent from the JSON). -/
structure CommitData where
  timestamp : String
  message : String
  files : List StagedEntry
  parent : Option String
  mergeParent : Option String
deriving DecidableEq, Repr

/-- An object stored in the `objects` directory: either a file blob written
by `add`, or a commit record written by `commit` / `merge`. -/
inductive Obj where
  | blob (content : String)
  | commit (data : CommitData)
deriving DecidableEq, Repr

/-- Association-list read, modelling a file lookup in a directory keyed by
name (objects by digest, branch refs by branch name). -/
def getKV {α : Type} : List (String × α) → String → Option α
  | [], _ => none
  | (k, v) :: rest, q => if k = q then some v else getKV rest q

/-- Association-list write, modelling `fs.writeFile`: an existing file named
`k` is overwritten in place, otherwise a new file is created. -/
def setKV {α : Type} : List (String × α) → String → α → List (String × α)
  | [], k, v => [(k, v)]
  | (k0, v0) :: rest, k, v =>
    if k0 = k then (k, v) :: rest else (k0, v0) :: setKV rest k v

/-- The names present in a directory. -/
def keys {α : Type} (l : List (String × α)) : List String := l.map Prod.fst

/-- How many entries of a directory carry the name `k`. -/
def countKey {α : Type} (l : List (String × α)) (k : String) : Nat :=
  (l.filter (fun e => e.1 = k)).length

/-- The whole mutable state of a repository: the `.pushup` directory. -/
structure Repo where
  objects : List (String × Obj)
  head : String
  index : List StagedEntry
  currentBranch : String
  branches : List (String × String)
deriving DecidableEq, Repr

/-- The raw bytes `fs.readFile` returns for a stored object: a blob is its
content, a commit is its serialized record. -/
def objText (ser : CommitData → String) : Obj → String
  | Obj.blob s => s
  | Obj.commit c => ser c

/-- `JSON.parse(await this.getCommitData(h))` when it yields usable commit
data: the object must exist and have been stored as a commit. -/
def getCommit (store : List (String × Obj)) (h : String) : Option CommitData :=
  match getKV store h with
  | some (Obj.commit c) => some c
  | _ => none

/-- `getFileContent`: read the raw bytes of the object stored at a digest. -/
def getFileContent (ser : CommitData → String) (store : List (String × Obj))
    (h : String) : Option String :=
  (getKV store h).map (objText ser)

/-- The object-store half of `add`: hash the content and write it into the
objects directory under its digest, returning the new store and the digest. -/
def addObject (hashFn : String → String) (store : List (String × Obj))
    (content : String) : List (String × Obj) × String :=
  (setKV store (hashFn content) (Obj.blob content), hashFn content)

/-- `index.splice(existingIndex, 1)` after `findIndex`: drop the first entry
staged for the given path, if any. -/
def removeFirst (p : String) : List StagedEntry → List StagedEntry
  | [] => []
  | e :: rest => if e.filePath = p then rest else e :: removeFirst p rest

/-- The index transformation of `updateStagingArea`: remove the first entry
for the path, then push the new entry at the end. -/
def stagedInsert (p h : String) (idx : List StagedEntry) : List StagedEntry :=
  removeFirst p idx ++ [⟨p, h⟩]

/-- `updateStagingArea`: rewrite the index file with the path re-staged. -/
def updateStagingArea (r : Repo) (filePath fileHash : String) : Repo :=
  { r with index := stagedInsert filePath fileHash r.index }

/-- A whole session of `stage` operations, applied in order starting from a
given repository state. -/
def applyStages (ops : List (String × String)) (r : Repo) : Repo :=
  ops.foldl (fun s op => updateStagingArea s op.1 op.2) r

/-- First staged digest recorded for a path (the JSON index is scanned in
order by `findIndex`, so under path uniqueness this is the entry). -/
def idxLookup : List StagedEntry → String → Option String
  | [], _ => none
  | e :: rest, p => if e.filePath = p then some e.fileHash else idxLookup rest p

/-- The paths of an index, in order. -/
def idxPaths (idx : List StagedEntry) : List String :=
  idx.map StagedEntry.filePath

/-- The digest of the most recent `stage` of a path in a session. -/
def lastStage : List (String × String) → String → Option String
  | [], _ => none
  | op :: rest, p =>
    match lastStage rest p with
    | some h => some h
    | none => if op.1 = p then some op.2 else none

/-- The commit payload built by `commit`: files are the staged entries, the
parent is the current HEAD with `head || null` turning an empty HEAD file
into JSON `null`, and no `mergeParent` key is written. -/
def mkCommitData (ts msg : String) (r : Repo) : CommitData :=
  { timestamp := ts
    message := msg
    files := r.index
    parent := if r.head = "" then none else some r.head
    mergeParent := none }

/-- `commit(message)`: a no-op when the staging index is empty; otherwise
store the new commit object, advance HEAD and the current branch ref to its
digest, and clear the index.  `ts` is the wall-clock timestamp string. -/
def commit (hashFn : String → String) (ser : CommitData → String)
    (ts msg : String) (r : Repo) : Repo :=
  if r.index = [] then r
  else
    let cd := mkCommitData ts msg r
    let d := hashFn (ser cd)
    { r with
      objects := setKV r.objects d (Obj.commit cd)
      head := d
      branches := setKV r.branches r.currentBranch d
      index := [] }

/-- The hash the walk in `log` continues from: `commitData.parent` is used
as the loop cursor, and both JSON `null` and the empty string are falsy. -/
def parentCursor (c : CommitData) : String :=
  match c.parent with
  | none => ""
  | some p => p

/-- The entries printed by `log`, paired with their commit data: starting
from a cursor, stop on a falsy cursor; read the commit object (a missing or
unparseable object ends the walk with nothing further printed); print it and
continue from its `parent`.  Fuel bounds the number of steps taken. -/
def logVisit (store : List (String × Obj)) : Nat → String → List (String × CommitData)
  | 0, _ => []
  | fuel + 1, h =>
    if h = "" then []
    else
      match getCommit store h with
      | none => []
      | some c => (h, c) :: logVisit store fuel (parentCursor c)

/-- `log()` as a state-passing operation: it only reads. -/
def logRun (fuel : Nat) (r : Repo) : Repo × List (String × CommitData) :=
  (r, logVisit r.objects fuel r.head)

/-- What `checkout` reports. -/
inductive CheckoutResult where
  | branchMissing
  | uncommittedChanges
  | switched
deriving DecidableEq, Repr

/-- `checkout(name)`: abort if the branch ref file does not exist; abort
(keeping everything) if the staging index is non-empty; otherwise set HEAD
to the branch tip and make the branch current. -/
def checkout (branchName : String) (r : Repo) : Repo × CheckoutResult :=
  match getKV r.branches branchName with
  | none => (r, CheckoutResult.branchMissing)
  | some branchCommit =>
    if r.index = [] then
      ({ r with head := branchCommit, currentBranch := branchName },
       CheckoutResult.switched)
    else (r, CheckoutResult.uncommittedChanges)

/-- The message of a merge commit. -/
def mergeMessage (branchName currentBranch : String) : String :=
  "Merge branch \x27" ++ branchName ++ "\x27 into " ++ currentBranch

/-- The payload of a merge commit: files are the target tip's files taken
verbatim, `parent` stores the raw current HEAD string (no `|| null`
normalization, so an empty HEAD is recorded as the empty string), and
`mergeParent` is the target tip digest. -/
def mkMergeData (ts branchName : String) (r : Repo) (tip : String)
    (tcd : CommitData) : CommitData :=
  { timestamp := ts
    message := mergeMessage branchName r.currentBranch
    files := tcd.files
    parent := some r.head
    mergeParent := some tip }

/-- What `merge` reports. -/
inductive MergeResult where
  | selfMerge
  | branchMissing
  | noCommits
  | upToDate
  | readFailure
  | merged
deriving DecidableEq, Repr

/-- `merge(name)`: reject a self-merge; abort if the branch ref is missing,
its tip is empty, or the tip equals the current HEAD; abort (via the
surrounding catch) if the tip object cannot be read back as a commit;
otherwise store the merge commit and advance HEAD and the current branch
ref to it.  The staging index is never consulted. -/
def merge (hashFn : String → String) (ser : CommitData → String)
    (ts branchName : String) (r : Repo) : Repo × MergeResult :=
  if branchName = r.currentBranch then (r, MergeResult.selfMerge)
  else
    match getKV r.branches branchName with
    | none => (r, MergeResult.branchMissing)
    | some tip =>
      if tip = "" then (r, MergeResult.noCommits)
      else if tip = r.head then (r, MergeResult.upToDate)
      else
        match getCommit r.objects tip with
        | none => (r, MergeResult.readFailure)
        | some tcd =>
          let mcd := mkMergeData ts branchName r tip tcd
          let d := hashFn (ser mcd)
          ({ r with
             objects := setKV r.objects d (Obj.commit mcd)
             head := d
             branches := setKV r.branches r.currentBranch d },
           MergeResult.merged)

/-- What `reset` reports. -/
inductive ResetResult where
  | notFound
  | resetOk
deriving DecidableEq, Repr

/-- `reset(commitHash)`: `getCommitData` returns the raw bytes of whatever
object file sits at the digest (it does not parse them), and the guard is
only the falsiness check `!commitData`, so the reset proceeds for any stored
object with non-empty content; it then sets HEAD and the current branch ref
to the digest and clears the staging index. -/
def reset (ser : CommitData → String) (commitHash : String) (r : Repo) :
    Repo × ResetResult :=
  match getKV r.objects commitHash with
  | none => (r, ResetResult.notFound)
  | some o =>
    if objText ser o = "" then (r, ResetResult.notFound)
    else
      ({ r with
         head := commitHash
         branches := setKV r.branches r.currentBranch commitHash
         index := [] },
       ResetResult.resetOk)

/-- One line of what `show` / `diff` print for a file. -/
inductive FileReport where
  | newFileInitial (p : String)
  | newFile (p : String)
  | changed (p oldContent newContent : String)
deriving DecidableEq, Repr

/-- The report `showCommitDiff` builds for one file of a commit, given the
parsed parent commit when there is one (`none` = root commit): missing blob
objects make the whole walk abort. -/
def reportFile (ser : CommitData → String) (store : List (String × Obj))
    (parentOpt : Option CommitData) (e : StagedEntry) : Option FileReport :=
  match getFileContent ser store e.fileHash with
  | none => none
  | some content =>
    match parentOpt with
    | none => some (FileReport.newFileInitial e.filePath)
    | some pcd =>
      match pcd.files.find? (fun f => f.filePath = e.filePath) with
      | none => some (FileReport.newFile e.filePath)
      | some pf =>
        match getFileContent ser store pf.fileHash with
        | none => none
        | some oldContent =>
          some (FileReport.changed e.filePath oldContent content)

/-- `show(commitHash)` as a state-passing operation: fetch the commit, fetch
the parent commit when the `parent` field is truthy, and report each file;
any unreadable object aborts with nothing mutated. -/
def showCommitDiff (ser : CommitData → String) (r : Repo)
    (commitHash : String) : Repo × Option (List FileReport) :=
  (r,
    match getCommit r.objects commitHash with
    | none => none
    | some cd =>
      match
        (match cd.parent with
         | none => some (none : Option CommitData)
         | some p =>
           if p = "" then some none
           else (getCommit r.objects p).map some) with
      | none => none
      | some parentOpt => cd.files.mapM (reportFile ser r.objects parentOpt))

/-- `status()` as a state-passing operation: report the current branch name
and the staged entries. -/
def status (r : Repo) : Repo × (String × List StagedEntry) :=
  (r, (r.currentBranch, r.index))

/-- The report `diff` builds for one staged entry, given the parsed HEAD
commit when there is one. -/
def diffEntry (ser : CommitData → String) (store : List (String × Obj))
    (headCd : Option CommitData) (e : StagedEntry) : Option FileReport :=
  match getFileContent ser store e.fileHash with
  | none => none
  | some staged =>
    match headCd with
    | none => some (FileReport.newFile e.filePath)
    | some cd =>
      match cd.files.find? (fun f => f.filePath = e.filePath) with
      | none => some (FileReport.newFile e.filePath)
      | some cf =>
        match getFileContent ser store cf.fileHash with
        | none => none
        | some committed =>
          some (FileReport.changed e.filePath committed staged)

/-- `diff()` as a state-passing operation: nothing to report on an empty
index; otherwise compare each staged entry against the HEAD commit. -/
def diff (ser : CommitData → String) (r : Repo) :
    Repo × Option (List FileReport) :=
  (r,
    if r.index = [] then some []
    else
      match
        (if r.head = "" then some (none : Option CommitData)
         else (getCommit r.objects r.head).map some) with
      | none => none
      | some headCd => r.index.mapM (diffEntry ser r.objects headCd))

/-- Rewrite the `mergeParent` field of every commit object in a store
according to an arbitrary reassignment `f` of digests to merge parents,
leaving blobs and every other field alone.  Used to state that the `log`
walk never consults `mergeParent`. -/
def overObj (f : String → Option String) (k : String) : Obj → Obj
  | Obj.blob s => Obj.blob s
  | Obj.commit c => Obj.commit { c with mergeParent := f k }

/-- Apply `overObj` across a whole object store. -/
def overrideMP (f : String → Option String) (store : List (String × Obj)) :
    List (String × Obj) :=
  store.map (fun e => (e.1, overObj f e.1 e.2))

/-- Modelled from the spec: the finite sequence of commits obtained by
starting at a digest and repeatedly following the `parent` field until it
is absent, each element resolving to a commit object in the store.  Object
names are sha1 hex digests, so a parent link is never the empty string. -/
inductive ParentChain (store : List (String × Obj)) : String → List String → Prop where
  | last : ∀ h c, getKV store h = some (Obj.commit c) → c.parent = none →
      ParentChain store h [h]
  | step : ∀ h c p rest, getKV store h = some (Obj.commit c) →
      c.parent = some p → p ≠ "" → ParentChain store p rest →
      ParentChain store h (h :: rest)

/-- Example hash function for concrete instantiations. -/
def hashEx : String → String := fun _ => "cc"

/-- Example serializer for concrete instantiations. -/
def serEx : CommitData → String := fun _ => "J"

/-- A commit payload used in concrete instantiations. -/
def cd1 : CommitData :=
  { timestamp := "t1", message := "first", files := [⟨ "a.txt", "d1" ⟩],
    parent := none, mergeParent := none }

/-- A second commit payload, child of `cd1`. -/
def cd2 : CommitData :=
  { timestamp := "t2", message := "second", files := [⟨ "a.txt", "d2" ⟩],
    parent := some "c1", mergeParent := none }

/-- A repository holding only a blob, with an empty HEAD. -/
def blobRepo : Repo :=
  { objects := [("d1", Obj.blob "x")], head := "", index := [],
    currentBranch := "main", branches := [("main", "")] }

/-- A repository with one staged file and no commits. -/
def stagedRepo : Repo :=
  { objects := [("d1", Obj.blob "x")], head := "",
    index := [⟨ "a.txt", "d1" ⟩], currentBranch := "main",
    branches := [("main", "")] }

/-- A repository with two commits on main, nothing staged. -/
def twoCommitRepo : Repo :=
  { objects := [("c1", Obj.commit cd1), ("c2", Obj.commit cd2)],
    head := "c2", index := [], currentBranch := "main",
    branches := [("main", "c2")] }

/-- A repository where a feature branch has diverged from main. -/
def divergentRepo : Repo :=
  { objects := [("c1", Obj.commit cd1), ("c3", Obj.commit cd2)],
    head := "c1", index := [], currentBranch := "main",
    branches := [("main", "c1"), ("feature", "c3")] }

/-- A repository with no commits at all, a staged file, and a feature
branch that already has a commit. -/
def freshWithFeatureRepo : Repo :=
  { objects := [("c1", Obj.commit cd1)], head := "",
    index := [⟨ "b.txt", "d9" ⟩], currentBranch := "main",
    branches := [("main", ""), ("feature", "c1")] }

/-- Concrete timestamp used in instantiations. -/
def ts0 : String := "t0"

/-- Concrete message used in instantiations. -/
def msg0 : String := "m0"

/-- Concrete blob content used in instantiations. -/
def content0 : String := "hello"

/-- The default branch name. -/
def branchMain : String := "main"

/-- A feature branch name. -/
def branchFeature : String := "feature"

/-- Digest of the first example commit. -/
def dC1 : String := "c1"

/-- Digest of the second example commit. -/
def dC2 : String := "c2"

/-- Digest of the tip of the example feature branch. -/
def dC3 : String := "c3"

/-- Digest of the example blob. -/
def dBlob : String := "d1"

/-- The empty digest: the content of a ref file for a branch that has no
commits yet. -/
def emptyDigest : String := ""

/-- Reading back the name just written returns the value just written. -/
theorem getKV_setKV_self {α : Type} (l : List (String × α)) (k : String) (v : α) :
    getKV (setKV l k v) k = some v := by
  induction l with
  | nil => simp [setKV, getKV]
  | cons hd tl ih =>
    obtain ⟨k0, v0⟩ := hd
    by_cases h : k0 = k
    · simp [setKV, h, getKV]
    · simp [setKV, h, getKV, ih]

/-- Writing one name leaves every other name unchanged. -/
theorem getKV_setKV_ne {α : Type} (l : List (String × α)) (k q : String) (v : α)
    (h : q ≠ k) : getKV (setKV l k v) q = getKV l q := by
  induction l with
  | nil => simp [setKV, getKV, Ne.symm h]
  | cons hd tl ih =>
    obtain ⟨k0, v0⟩ := hd
    by_cases hk : k0 = k
    · subst hk
      simp [setKV, getKV, Ne.symm h]
    · by_cases hq : k0 = q
      · simp [setKV, hk, getKV, hq, h]
      · simp [setKV, hk, getKV, hq, ih]

/-- Overwriting the same name twice is the same as writing it once. -/
theorem setKV_setKV_same {α : Type} (l : List (String × α)) (k : String) (v w : α) :
    setKV (setKV l k v) k w = setKV l k w := by
  induction l with
  | nil => simp [setKV]
  | cons hd tl ih =>
    obtain ⟨k0, v0⟩ := hd
    by_cases h : k0 = k
    · simp [setKV, h]
    · simp [setKV, h, ih]

/-- A directory without the name has no entry counted for it. -/
theorem countKey_eq_zero {α : Type} (l : List (String × α)) (k : String)
    (h : k ∉ keys l) : countKey l k = 0 := by
  induction l with
  | nil => rfl
  | cons hd tl ih =>
    have hck : keys (hd :: tl) = hd.1 :: keys tl := rfl
    rw [hck, List.mem_cons] at h
    push_neg at h
    have h0 : countKey tl k = 0 := ih h.2
    simp [countKey, List.filter_cons, Ne.symm h.1]
    simpa [countKey] using h0

/-- Writing into a directory with unique names leaves exactly one entry
under the written name. -/
theorem countKey_setKV {α : Type} (l : List (String × α)) (k : String) (v : α)
    (h : (keys l).Nodup) : countKey (setKV l k v) k = 1 := by
  induction l with
  | nil => simp [setKV, countKey, List.filter_cons]
  | cons hd tl ih =>
    obtain ⟨k0, v0⟩ := hd
    have hck : keys ((k0, v0) :: tl) = k0 :: keys tl := rfl
    rw [hck, List.nodup_cons] at h
    by_cases hk : k0 = k
    · subst hk
      have h0 : countKey tl k0 = 0 := countKey_eq_zero tl k0 h.1
      simp [setKV, countKey, List.filter_cons]
      simpa [countKey] using h0
    · simp [setKV, hk, countKey, List.filter_cons]
      simpa [countKey] using ih h.2

/-- The log walk started on a falsy cursor prints nothing. -/
theorem logVisit_empty (store : List (String × Obj)) (fuel : Nat) :
    logVisit store fuel "" = [] := by
  cases fuel <;> simp [logVisit]

/-- Removing the first entry for one path does not change the lookup of any
other path. -/
theorem idxLookup_removeFirst_ne (p q : String) (idx : List StagedEntry)
    (h : q ≠ p) : idxLookup (removeFirst p idx) q = idxLookup idx q := by
  induction idx with
  | nil => rfl
  | cons e rest ih =>
    by_cases he : e.filePath = p
    · simp [removeFirst, he, idxLookup, Ne.symm h]
    · by_cases heq : e.filePath = q
      · simp [removeFirst, he, idxLookup, heq, h]
      · simp [removeFirst, he, idxLookup, heq, ih]

/-- An index not containing a path has no lookup result for it. -/
theorem idxLookup_eq_none (idx : List StagedEntry) (p : String)
    (h : p ∉ idxPaths idx) : idxLookup idx p = none := by
  induction idx with
  | nil => rfl
  | cons e rest ih =>
    have hck : idxPaths (e :: rest) = e.filePath :: idxPaths rest := rfl
    rw [hck, List.mem_cons] at h
    push_neg at h
    simp [idxLookup, Ne.symm h.1]
    exact ih h.2

/-- `removeFirst` yields a sublist of the index. -/
theorem removeFirst_sublist (p : String) (idx : List StagedEntry) :
    List.Sublist (removeFirst p idx) idx := by
  induction idx with
  | nil => simp [removeFirst]
  | cons e rest ih =>
    by_cases he : e.filePath = p
    · simp only [removeFirst, if_pos he]
      exact List.sublist_cons_self e rest
    · simp only [removeFirst, if_neg he]
      exact List.Sublist.cons₂ e ih

/-- Under path uniqueness, the path removed by `removeFirst` no longer
occurs in the index. -/
theorem not_mem_removeFirst (p : String) (idx : List StagedEntry)
    (h : (idxPaths idx).Nodup) : p ∉ idxPaths (removeFirst p idx) := by
  induction idx with
  | nil => simp [removeFirst, idxPaths]
  | cons e rest ih =>
    have hck : idxPaths (e :: rest) = e.filePath :: idxPaths rest := rfl
    rw [hck, List.nodup_cons] at h
    by_cases he : e.filePath = p
    · rw [removeFirst, if_pos he]
      rw [he] at h
      exact h.1
    · have hck2 : idxPaths (e :: removeFirst p rest) =
          e.filePath :: idxPaths (removeFirst p rest) := rfl
      rw [removeFirst, if_neg he, hck2, List.mem_cons]
      push_neg
      exact ⟨Ne.symm he, ih h.2⟩

/-- `removeFirst` preserves path uniqueness. -/
theorem removeFirst_nodup (p : String) (idx : List StagedEntry)
    (h : (idxPaths idx).Nodup) : (idxPaths (removeFirst p idx)).Nodup :=
  List.Nodup.sublist (List.Sublist.map StagedEntry.filePath
    (removeFirst_sublist p idx)) h

/-- Re-staging a path preserves path uniqueness of the index. -/
theorem stagedInsert_nodup (p h : String) (idx : List StagedEntry)
    (hnd : (idxPaths idx).Nodup) :
    (idxPaths (stagedInsert p h idx)).Nodup := by
  have h1 := removeFirst_nodup p idx hnd
  have h2 := not_mem_removeFirst p idx hnd
  have hck : idxPaths (stagedInsert p h idx) =
      idxPaths (removeFirst p idx) ++ [p] := by
    simp [stagedInsert, idxPaths]
  rw [hck, List.nodup_append]
  refine ⟨h1, List.nodup_singleton p, ?_⟩
  intro a ha hb
  rw [List.mem_singleton] at hb
  exact h2 (hb ▸ ha)

/-- Lookup distributes over append when the first part misses. -/
theorem idxLookup_append_none (l1 l2 : List StagedEntry) (p : String)
    (h : idxLookup l1 p = none) :
    idxLookup (l1 ++ l2) p = idxLookup l2 p := by
  induction l1 with
  | nil => rfl
  | cons e rest ih =>
    by_cases he : e.filePath = p
    · simp [idxLookup, he] at h
    · simp [idxLookup, he] at h ⊢
      exact ih h

/-- Lookup distributes over append when the first part hits. -/
theorem idxLookup_append_some (l1 l2 : List StagedEntry) (p v : String)
    (h : idxLookup l1 p = some v) :
    idxLookup (l1 ++ l2) p = some v := by
  induction l1 with
  | nil => simp [idxLookup] at h
  | cons e rest ih =>
    by_cases he : e.filePath = p
    · simp [idxLookup, he] at h ⊢
      exact h
    · simp [idxLookup, he] at h ⊢
      exact ih h

/-- Under path uniqueness, re-staging a path makes its lookup the new
digest. -/
theorem idxLookup_stagedInsert_self (p h : String) (idx : List StagedEntry)
    (hnd : (idxPaths idx).Nodup) :
    idxLookup (stagedInsert p h idx) p = some h := by
  have h2 := not_mem_removeFirst p idx hnd
  have h3 := idxLookup_eq_none (removeFirst p idx) p h2
  rw [stagedInsert, idxLookup_append_none _ _ _ h3]
  simp [idxLookup]

/-- Re-staging a path does not change the lookup of any other path. -/
theorem idxLookup_stagedInsert_ne (p h q : String) (idx : List StagedEntry)
    (hq : q ≠ p) :
    idxLookup (stagedInsert p h idx) q = idxLookup idx q := by
  cases hc : idxLookup (removeFirst p idx) q with
  | some v =>
    rw [stagedInsert, idxLookup_append_some _ _ _ _ hc, ← hc,
      idxLookup_removeFirst_ne _ _ _ hq]
  | none =>
    rw [stagedInsert, idxLookup_append_none _ _ _ hc,
      ← idxLookup_removeFirst_ne p q idx hq, hc]
    simp [idxLookup, Ne.symm hq]

/-- Unfolding one step of a staging session. -/
theorem applyStages_cons (op : String × String) (ops : List (String × String))
    (r : Repo) :
    applyStages (op :: ops) r = applyStages ops (updateStagingArea r op.1 op.2) :=
  rfl

/-- Invariant of a staging session: starting from an index with unique
paths, paths stay unique and each path maps to its most recent staged
digest, falling back to the starting index. -/
theorem applyStages_spec (ops : List (String × String)) :
    ∀ r : Repo, (idxPaths r.index).Nodup →
      (idxPaths (applyStages ops r).index).Nodup ∧
      ∀ p, idxLookup (applyStages ops r).index p =
        (match lastStage ops p with
         | some h => some h
         | none => idxLookup r.index p) := by
  induction ops with
  | nil => exact fun r h => ⟨h, fun p => rfl⟩
  | cons op rest ih =>
    intro r h
    have hnd2 : (idxPaths (updateStagingArea r op.1 op.2).index).Nodup :=
      stagedInsert_nodup op.1 op.2 r.index h
    have hstep := ih (updateStagingArea r op.1 op.2) hnd2
    refine ⟨by rw [applyStages_cons]; exact hstep.1, fun p => ?_⟩
    rw [applyStages_cons, hstep.2 p]
    cases hls : lastStage rest p with
    | some hdig => simp [lastStage, hls]
    | none =>
      simp [lastStage, hls]
      by_cases hp : op.1 = p
      · subst hp
        simp [updateStagingArea, idxLookup_stagedInsert_self _ _ _ h]
      · simp [hp, updateStagingArea,
          idxLookup_stagedInsert_ne _ _ _ _ (Ne.symm hp)]

/-- Looking up in a store with rewritten merge parents finds the rewritten
object under the same name. -/
theorem getKV_overrideMP (f : String → Option String)
    (store : List (String × Obj)) (h : String) :
    getKV (overrideMP f store) h = (getKV store h).map (overObj f h) := by
  induction store with
  | nil => rfl
  | cons e rest ih =>
    by_cases he : e.1 = h
    · simp [overrideMP, getKV, he]
    · simp [overrideMP, getKV, he] at ih ⊢
      simpa [overrideMP] using ih

/-- Parsing a commit from a store with rewritten merge parents yields the
same commit with only its `mergeParent` field rewritten. -/
theorem getCommit_overrideMP (f : String → Option String)
    (store : List (String × Obj)) (h : String) :
    getCommit (overrideMP f store) h =
      (getCommit store h).map (fun c => { c with mergeParent := f h }) := by
  rw [getCommit, getCommit, getKV_overrideMP]
  cases getKV store h with
  | none => rfl
  | some o => cases o <;> rfl

/-- The log walk is blind to `mergeParent`: rewriting every merge parent in
the store leaves the visited sequence of digests unchanged. -/
theorem logVisit_overrideMP (f : String → Option String)
    (store : List (String × Obj)) :
    ∀ fuel h, (logVisit (overrideMP f store) fuel h).map Prod.fst =
      (logVisit store fuel h).map Prod.fst := by
  intro fuel
  induction fuel with
  | zero => intro h; rfl
  | succ n ih =>
    intro h
    by_cases hh : h = ""
    · simp [logVisit, hh]
    · rw [logVisit, logVisit, if_neg hh, if_neg hh, getCommit_overrideMP]
      cases hc : getCommit store h with
      | none => rfl
      | some c =>
        have hcur : parentCursor { c with mergeParent := f h } = parentCursor c := rfl
        show List.map Prod.fst ((h, { c with mergeParent := f h }) ::
            logVisit (overrideMP f store) n
              (parentCursor { c with mergeParent := f h })) =
          List.map Prod.fst ((h, c) :: logVisit store n (parentCursor c))
        simp only [List.map_cons, hcur]
        rw [ih (parentCursor c)]

/-- The log walk follows a first-parent chain exactly, given enough fuel. -/
theorem logVisit_of_chain (store : List (String × Obj)) :
    ∀ h l, ParentChain store h l → h ≠ "" → ∀ fuel, l.length ≤ fuel →
      (logVisit store fuel h).map Prod.fst = l := by
  intro h l hch
  induction hch with
  | last h0 c hg hp =>
    intro hne fuel hf
    cases fuel with
    | zero => simp at hf
    | succ n =>
      have hc : getCommit store h0 = some c := by simp [getCommit, hg]
      have hcur : parentCursor c = "" := by simp [parentCursor, hp]
      rw [logVisit, if_neg hne, hc]
      show List.map Prod.fst ((h0, c) :: logVisit store n (parentCursor c)) = [h0]
      rw [hcur, logVisit_empty]
      rfl
  | step h0 c p rest hg hp hpne hch2 ih =>
    intro hne fuel hf
    cases fuel with
    | zero => simp at hf
    | succ n =>
      have hc : getCommit store h0 = some c := by simp [getCommit, hg]
      have hcur : parentCursor c = p := by simp [parentCursor, hp]
      rw [logVisit, if_neg hne, hc]
      show List.map Prod.fst ((h0, c) :: logVisit store n (parentCursor c)) =
        h0 :: rest
      rw [hcur]
      simp only [List.map_cons]
      rw [ih hpne n (by simpa using hf)]

/-- The shape of a successful `merge`: the stored merge commit, the new
HEAD, and the advanced current-branch ref. -/
theorem merge_success_eq (hashFn : String → String) (ser : CommitData → String)
    (ts branchName : String) (r : Repo) (tip : String) (tcd : CommitData)
    (hself : branchName ≠ r.currentBranch)
    (htip : getKV r.branches branchName = some tip)
    (hne : tip ≠ "") (hdiv : tip ≠ r.head)
    (hcd : getCommit r.objects tip = some tcd) :
    merge hashFn ser ts branchName r =
      ({ r with
         objects := setKV r.objects
           (hashFn (ser (mkMergeData ts branchName r tip tcd)))
           (Obj.commit (mkMergeData ts branchName r tip tcd))
         head := hashFn (ser (mkMergeData ts branchName r tip tcd))
         branches := setKV r.branches r.currentBranch
           (hashFn (ser (mkMergeData ts branchName r tip tcd))) },
       MergeResult.merged) := by
  rw [merge, if_neg hself, htip]
  simp only [if_neg hne, if_neg hdiv, hcd]

/-- The shape of a successful `commit`: the stored commit, the new HEAD,
the advanced current-branch ref, and the cleared index. -/
theorem commit_nonempty_eq (hashFn : String → String) (ser : CommitData → String)
    (ts msg : String) (r : Repo) (hidx : r.index ≠ []) :
    commit hashFn ser ts msg r =
      { r with
        objects := setKV r.objects (hashFn (ser (mkCommitData ts msg r)))
          (Obj.commit (mkCommitData ts msg r))
        head := hashFn (ser (mkCommitData ts msg r))
        branches := setKV r.branches r.currentBranch
          (hashFn (ser (mkCommitData ts msg r)))
        index := [] } := by
  rw [commit, if_neg hidx]

/-- C1: in every state where the current branch differs from the target
branch name, the target branch exists with a non-empty tip resolving to a
commit, and that tip differs from the current HEAD, `merge` records exactly
one new commit: the stored object under the new digest has the target tip
commit's files verbatim, parent equal to the pre-merge HEAD and mergeParent
equal to the tip digest, every other digest maps to what it mapped to
before, and afterwards HEAD and the current branch's tip equal the new
digest. -/
theorem merge_divergent_spec (hashFn : String → String) (ser : CommitData → String)
    (ts branchName : String) (r : Repo) (tip : String) (tcd : CommitData)
    (hself : branchName ≠ r.currentBranch)
    (htip : getKV r.branches branchName = some tip)
    (hne : tip ≠ "") (hdiv : tip ≠ r.head)
    (hcd : getCommit r.objects tip = some tcd) :
    (merge hashFn ser ts branchName r).2 = MergeResult.merged ∧
    getKV (merge hashFn ser ts branchName r).1.objects
      (hashFn (ser (mkMergeData ts branchName r tip tcd))) =
      some (Obj.commit (mkMergeData ts branchName r tip tcd)) ∧
    (∀ k, k ≠ hashFn (ser (mkMergeData ts branchName r tip tcd)) →
      getKV (merge hashFn ser ts branchName r).1.objects k = getKV r.objects k) ∧
    (mkMergeData ts branchName r tip tcd).files = tcd.files ∧
    (mkMergeData ts branchName r tip tcd).parent = some r.head ∧
    (mkMergeData ts branchName r tip tcd).mergeParent = some tip ∧
    (merge hashFn ser ts branchName r).1.head =
      hashFn (ser (mkMergeData ts branchName r tip tcd)) ∧
    getKV (merge hashFn ser ts branchName r).1.branches r.currentBranch =
      some (hashFn (ser (mkMergeData ts branchName r tip tcd))) := by
  rw [merge_success_eq hashFn ser ts branchName r tip tcd hself htip hne hdiv hcd]
  exact ⟨rfl, getKV_setKV_self _ _ _, fun k hk => getKV_setKV_ne _ _ _ _ hk,
    rfl, rfl, rfl, rfl, getKV_setKV_self _ _ _⟩

/-- C1 witness: merging the divergent feature branch of the concrete
repository succeeds. -/
theorem merge_divergent_spec_witness :
    branchFeature ≠ divergentRepo.currentBranch ∧
    getKV divergentRepo.branches branchFeature = some dC3 ∧
    dC3 ≠ "" ∧ dC3 ≠ divergentRepo.head ∧
    getCommit divergentRepo.objects dC3 = some cd2 ∧
    (merge hashEx serEx ts0 branchFeature divergentRepo).2 = MergeResult.merged :=
  ⟨by decide, by decide, by decide, by decide, by decide,
    (merge_divergent_spec hashEx serEx ts0 branchFeature divergentRepo dC3 cd2
      (by decide) (by decide) (by decide) (by decide) (by decide)).1⟩

/-- C2: with a non-empty staging index, `commit` stores a new commit whose
parent equals the pre-commit HEAD (null when the HEAD file was empty) and
whose files are the pre-commit staged entries; afterwards the index is
empty, HEAD and the current branch's tip equal the new digest, and the new
commit is the first entry `log` prints. -/
theorem commit_nonempty_spec (hashFn : String → String) (ser : CommitData → String)
    (ts msg : String) (r : Repo) (hidx : r.index ≠ [])
    (hd : hashFn (ser (mkCommitData ts msg r)) ≠ "") :
    (mkCommitData ts msg r).parent =
      (if r.head = "" then none else some r.head) ∧
    (mkCommitData ts msg r).files = r.index ∧
    getKV (commit hashFn ser ts msg r).objects
      (hashFn (ser (mkCommitData ts msg r))) =
      some (Obj.commit (mkCommitData ts msg r)) ∧
    (commit hashFn ser ts msg r).index = [] ∧
    (commit hashFn ser ts msg r).head = hashFn (ser (mkCommitData ts msg r)) ∧
    getKV (commit hashFn ser ts msg r).branches r.currentBranch =
      some (hashFn (ser (mkCommitData ts msg r))) ∧
    ∀ fuel, (logVisit (commit hashFn ser ts msg r).objects (fuel + 1)
        (commit hashFn ser ts msg r).head).head? =
      some (hashFn (ser (mkCommitData ts msg r)), mkCommitData ts msg r) := by
  rw [commit_nonempty_eq hashFn ser ts msg r hidx]
  refine ⟨rfl, rfl, getKV_setKV_self _ _ _, rfl, rfl, getKV_setKV_self _ _ _,
    fun fuel => ?_⟩
  have hc : getCommit (setKV r.objects (hashFn (ser (mkCommitData ts msg r)))
      (Obj.commit (mkCommitData ts msg r)))
      (hashFn (ser (mkCommitData ts msg r))) = some (mkCommitData ts msg r) := by
    simp [getCommit, getKV_setKV_self]
  show (logVisit (setKV r.objects (hashFn (ser (mkCommitData ts msg r)))
      (Obj.commit (mkCommitData ts msg r))) (fuel + 1)
      (hashFn (ser (mkCommitData ts msg r)))).head? =
    some (hashFn (ser (mkCommitData ts msg r)), mkCommitData ts msg r)
  rw [logVisit, if_neg hd, hc]
  rfl

/-- C2 witness: committing the concrete repository with one staged file. -/
theorem commit_nonempty_spec_witness :
    stagedRepo.index ≠ [] ∧
    hashEx (serEx (mkCommitData ts0 msg0 stagedRepo)) ≠ "" ∧
    (commit hashEx serEx ts0 msg0 stagedRepo).index = [] :=
  ⟨by decide, by decide,
    (commit_nonempty_spec hashEx serEx ts0 msg0 stagedRepo
      (by decide) (by decide)).2.2.2.1⟩

/-- C3: `commit` on an empty staging index performs no state mutation at
all: the repository value is returned unchanged, so HEAD, the branch tips,
the object store and the index are untouched and no commit is created. -/
theorem commit_empty_noop (hashFn : String → String) (ser : CommitData → String)
    (ts msg : String) (r : Repo) (h : r.index = []) :
    commit hashFn ser ts msg r = r := by
  rw [commit, if_pos h]

/-- C3 witness: committing with nothing staged leaves the concrete
repository unchanged. -/
theorem commit_empty_noop_witness :
    blobRepo.index = [] ∧ commit hashEx serEx ts0 msg0 blobRepo = blobRepo :=
  ⟨rfl, commit_empty_noop hashEx serEx ts0 msg0 blobRepo rfl⟩

/-- C4: with a non-empty staging index, `checkout` mutates nothing, and
whenever the target branch exists the failure is the uncommitted-changes
rejection, independent of what is staged or what the branch contains. -/
theorem checkout_dirty_blocked (branchName : String) (r : Repo)
    (hidx : r.index ≠ []) :
    (checkout branchName r).1 = r ∧
    ∀ tip, getKV r.branches branchName = some tip →
      (checkout branchName r).2 = CheckoutResult.uncommittedChanges := by
  cases hb : getKV r.branches branchName with
  | none => simp [checkout, hb]
  | some tip0 => simp [checkout, hb, hidx]

/-- C4 witness: checkout of main is blocked on the concrete repository
with a staged file. -/
theorem checkout_dirty_blocked_witness :
    stagedRepo.index ≠ [] ∧
    (checkout branchMain stagedRepo).1 = stagedRepo ∧
    (checkout branchMain stagedRepo).2 = CheckoutResult.uncommittedChanges := by
  have h := checkout_dirty_blocked branchMain stagedRepo (by decide)
  exact ⟨by decide, h.1, h.2 emptyDigest (by decide)⟩

/-- C5 counterexample: in the concrete repository the digest dBlob
resolves to a plain blob and to no commit, yet `reset` succeeds and moves
HEAD there instead of failing with NotFound and changing nothing. -/
theorem reset_noncommit_counterexample :
    getCommit blobRepo.objects dBlob = none ∧
    (reset serEx dBlob blobRepo).2 = ResetResult.resetOk ∧
    (reset serEx dBlob blobRepo).1.head = dBlob ∧
    blobRepo.head ≠ dBlob := by decide

/-- C5 amended: `reset` treats any digest whose stored object has non-empty
raw content as valid (commit or plain blob): it sets HEAD and the current
branch's tip to the digest and empties the staging index unconditionally;
it fails with NotFound and leaves the state unchanged exactly when no
object is stored under the digest or the stored content is empty. -/
theorem reset_spec (ser : CommitData → String) (commitHash : String) (r : Repo) :
    (∀ o, getKV r.objects commitHash = some o → objText ser o ≠ "" →
      (reset ser commitHash r).1.head = commitHash ∧
      getKV (reset ser commitHash r).1.branches r.currentBranch =
        some commitHash ∧
      (reset ser commitHash r).1.index = [] ∧
      (reset ser commitHash r).2 = ResetResult.resetOk) ∧
    (getKV r.objects commitHash = none →
      reset ser commitHash r = (r, ResetResult.notFound)) ∧
    (∀ o, getKV r.objects commitHash = some o → objText ser o = "" →
      reset ser commitHash r = (r, ResetResult.notFound)) := by
  refine ⟨fun o ho hne => ?_, fun ho => ?_, fun o ho he => ?_⟩
  · simp [reset, ho, hne, getKV_setKV_self]
  · simp [reset, ho]
  · simp [reset, ho, he]

/-- C5 witness: resetting the concrete two-commit repository to its root
commit succeeds and moves HEAD there. -/
theorem reset_spec_witness :
    getKV twoCommitRepo.objects dC1 = some (Obj.commit cd1) ∧
    objText serEx (Obj.commit cd1) ≠ "" ∧
    (reset serEx dC1 twoCommitRepo).1.head = dC1 :=
  ⟨by decide, by decide,
    ((reset_spec serEx dC1 twoCommitRepo).1 (Obj.commit cd1)
      (by decide) (by decide)).1⟩

/-- C6: path uniqueness is an invariant of the staging index: starting
from an empty index, after every sequence of stage operations each path
occurs in at most one entry, and the entry for a path carries the digest
of the most recent stage of that path. -/
theorem staging_index_path_unique (ops : List (String × String)) (r : Repo) :
    (idxPaths (applyStages ops { r with index := [] }).index).Nodup ∧
    ∀ p, idxLookup (applyStages ops { r with index := [] }).index p =
      lastStage ops p := by
  have h := applyStages_spec ops { r with index := [] } (by simp [idxPaths])
  refine ⟨h.1, fun p => ?_⟩
  have hl := h.2 p
  cases hls : lastStage ops p with
  | some hdig =>
    rw [hls] at hl
    simpa using hl
  | none =>
    rw [hls] at hl
    simpa [idxLookup] using hl

/-- C7: putting content into the object store then reading the object
under its digest returns the content exactly; a second put of the same
content yields the same digest and the identical store, and in a store
with unique file names exactly one object sits under that digest. -/
theorem object_store_roundtrip (hashFn : String → String) (ser : CommitData → String)
    (store : List (String × Obj)) (c : String) (hnd : (keys store).Nodup) :
    getFileContent ser (addObject hashFn store c).1 (hashFn c) = some c ∧
    (addObject hashFn (addObject hashFn store c).1 c).2 =
      (addObject hashFn store c).2 ∧
    (addObject hashFn (addObject hashFn store c).1 c).1 =
      (addObject hashFn store c).1 ∧
    countKey (addObject hashFn store c).1 (hashFn c) = 1 := by
  refine ⟨?_, rfl, ?_, ?_⟩
  · simp [addObject, getFileContent, getKV_setKV_self, objText]
  · simp [addObject, setKV_setKV_same]
  · exact countKey_setKV store (hashFn c) (Obj.blob c) hnd

/-- C7 witness: the round-trip on the concrete store. -/
theorem object_store_roundtrip_witness :
    (keys blobRepo.objects).Nodup ∧
    getFileContent serEx (addObject hashEx blobRepo.objects content0).1
      (hashEx content0) = some content0 :=
  ⟨by decide,
    (object_store_roundtrip hashEx serEx blobRepo.objects content0 (by decide)).1⟩

/-- C8: for a non-empty HEAD whose first-parent chain is finite, `log`
visits exactly that chain in order given enough fuel, and the visited
sequence never depends on any commit's mergeParent field: rewriting every
mergeParent in the store leaves it unchanged, so after a merge the log
shows only the first-parent side of history. -/
theorem log_first_parent_only (store : List (String × Obj)) (h : String)
    (l : List String) (hne : h ≠ "") (hch : ParentChain store h l) :
    (∀ fuel, l.length ≤ fuel →
      (logVisit store fuel h).map Prod.fst = l) ∧
    (∀ f fuel, (logVisit (overrideMP f store) fuel h).map Prod.fst =
      (logVisit store fuel h).map Prod.fst) :=
  ⟨fun fuel hf => logVisit_of_chain store h l hch hne fuel hf,
   fun f fuel => logVisit_overrideMP f store fuel h⟩

/-- C8 witness: the two-commit chain of the concrete repository is walked
in order. -/
theorem log_first_parent_only_witness :
    dC2 ≠ "" ∧ ParentChain twoCommitRepo.objects dC2 [dC2, dC1] ∧
    (logVisit twoCommitRepo.objects 2 dC2).map Prod.fst = [dC2, dC1] := by
  have hch : ParentChain twoCommitRepo.objects dC2 [dC2, dC1] :=
    ParentChain.step dC2 cd2 dC1 [dC1] (by decide) (by decide) (by decide)
      (ParentChain.last dC1 cd1 (by decide) (by decide))
  exact ⟨by decide, hch,
    (log_first_parent_only twoCommitRepo.objects dC2 [dC2, dC1]
      (by decide) hch).1 2 (by decide)⟩

/-- C9: log, status, show and diff are read-only: each returns the
repository state unchanged alongside its report, for every state and every
argument, whether the reads succeed or fail. -/
theorem read_ops_no_mutation (ser : CommitData → String) (r : Repo)
    (fuel : Nat) (commitHash : String) :
    (logRun fuel r).1 = r ∧ (status r).1 = r ∧
    (showCommitDiff ser r commitHash).1 = r ∧ (diff ser r).1 = r :=
  ⟨rfl, rfl, rfl, rfl⟩

/-- C10: when merge succeeds in a state whose current branch has no
commits (empty HEAD), the merge commit records parent as the empty string
rather than null, unlike commit, which normalizes an empty HEAD to a null
parent; and merge performs no dirty-stage check, so a non-empty staging
index neither blocks it nor is changed by it. -/
theorem merge_empty_head_spec (hashFn : String → String) (ser : CommitData → String)
    (ts branchName : String) (r : Repo) (tip : String) (tcd : CommitData)
    (hhead : r.head = "")
    (hself : branchName ≠ r.currentBranch)
    (htip : getKV r.branches branchName = some tip)
    (hne : tip ≠ "")
    (hcd : getCommit r.objects tip = some tcd)
    (_hidx : r.index ≠ []) :
    (mkMergeData ts branchName r tip tcd).parent = some emptyDigest ∧
    (mkMergeData ts branchName r tip tcd).parent ≠ none ∧
    (∀ ts2 msg2, (mkCommitData ts2 msg2 r).parent = none) ∧
    (merge hashFn ser ts branchName r).2 = MergeResult.merged ∧
    (merge hashFn ser ts branchName r).1.head =
      hashFn (ser (mkMergeData ts branchName r tip tcd)) ∧
    getKV (merge hashFn ser ts branchName r).1.objects
      (hashFn (ser (mkMergeData ts branchName r tip tcd))) =
      some (Obj.commit (mkMergeData ts branchName r tip tcd)) ∧
    (merge hashFn ser ts branchName r).1.index = r.index := by
  have hdiv : tip ≠ r.head := by rw [hhead]; exact hne
  rw [merge_success_eq hashFn ser ts branchName r tip tcd hself htip hne hdiv hcd]
  refine ⟨?_, ?_, fun ts2 msg2 => ?_, rfl, rfl, getKV_setKV_self _ _ _, rfl⟩
  · simp [mkMergeData, hhead, emptyDigest]
  · simp [mkMergeData]
  · simp [mkCommitData, hhead]

/-- C10 witness: merging the feature branch into the empty main branch of
the concrete repository records an empty-string parent. -/
theorem merge_empty_head_spec_witness :
    freshWithFeatureRepo.head = "" ∧
    branchFeature ≠ freshWithFeatureRepo.currentBranch ∧
    getKV freshWithFeatureRepo.branches branchFeature = some dC1 ∧
    dC1 ≠ "" ∧
    getCommit freshWithFeatureRepo.objects dC1 = some cd1 ∧
    freshWithFeatureRepo.index ≠ [] ∧
    (mkMergeData ts0 branchFeature freshWithFeatureRepo dC1 cd1).parent =
      some emptyDigest :=
  ⟨by decide, by decide, by decide, by decide, by decide, by decide,
    (merge_empty_head_spec hashEx serEx ts0 branchFeature freshWithFeatureRepo
      dC1 cd1 (by decide) (by decide) (by decide) (by decide) (by decide)
      (by decide)).1⟩

end PushUP
